import Mathlib

/-!
Verification of the state-journaling and bytecode-decommitment core of the
zksync multi-version VM:

* `core/lib/multivm/src/versions/vm_m5/utils.rs` — memory-page byte
  extraction (`dump_memory_page_by_offset_and_length` and its fat-pointer /
  primitive-value entry points) and the timestamp suffix utilities
  (`collect_log_queries_after_timestamp`,
  `collect_storage_log_queries_after_timestamp`,
  `precompile_calls_count_after_timestamp`).
* `core/lib/multivm/src/versions/vm_m6/oracles/decommitter.rs` — the
  `DecommitterOracle` (`get_bytecode`, `decommit_into_memory`,
  `rollback_to_timestamp`).

Machine integers are modelled as `Nat` with explicit `% 2 ^ w` at the points
where the Rust code performs a truncating cast (`as u16`, `as u32`).  Rust
arithmetic that can overflow or underflow a `u32`, and Rust `assert!` /
`.expect(...)` failures (panics), are modelled by an `Option` result:
`none` means the call does not return normally.
-/

namespace ZkSyncRevo

/-! ### Big-endian 256-bit word codec

Models `IntoFixedLengthByteIterator for U256` from `vm_m5/utils.rs`
(`into_be_iter`, built on `U256::to_big_endian`): a 256-bit word viewed as
its 32 big-endian bytes. -/

/-- The `n` big-endian base-256 digits of `w` (least significant byte last). -/
def beBytes : Nat → Nat → List Nat
  | 0, _ => []
  | n + 1, w => beBytes n (w / 256) ++ [w % 256]

/-- `into_be_iter` of `vm_m5/utils.rs`: the 32 big-endian bytes of a word. -/
def into_be_iter (w : Nat) : List Nat := beBytes 32 w

/-- The value of a big-endian byte string (`U256::from_big_endian`). -/
def beVal (l : List Nat) : Nat := l.foldl (fun a b => 256 * a + b) 0

/-- A 32-byte big-endian word from a chunk of at most 32 bytes (a short final
chunk is zero-padded on the right, matching byte padding of bytecode to a
whole number of words). -/
def beWord (chunk : List Nat) : Nat :=
  beVal (chunk ++ List.replicate (32 - chunk.length) 0)

/-- Modelled from the spec: `bytes_to_be_words` (`crate::utils::bytecode`,
not under the examined sources) — "convert bytes to big-endian words": the
byte string is split into 32-byte chunks, each read as a big-endian word. -/
def bytes_to_be_words (l : List Nat) : List Nat :=
  if h : l = [] then []
  else beWord (l.take 32) :: bytes_to_be_words (l.drop 32)
termination_by l.length
decreasing_by
  cases l with
  | nil => exact absurd rfl h
  | cons a t => simpa using Nat.lt_succ_of_le (Nat.sub_le _ _)

/-- Modelled from the spec: the memory collaborator's word-range read
capability `dump_page_content_as_u256_words(page, wordRange)` ("reads exactly
that word range from the page").  Memory is a total map from page and word
index to a 256-bit word; the call returns the words at indices
`[first, last)` of the page. -/
def dump_page_content_as_u256_words (memory : Nat → Nat → Nat) (page first last : Nat) :
    List Nat :=
  (List.range (last - first)).map fun i => memory page (first + i)

/-- The byte-push step of the dump loop in
`dump_memory_page_by_offset_and_length`: pushes each incoming byte while
`remaining > 0`, decrementing `remaining` per pushed byte. -/
def pushAvail : List Nat → List Nat → Nat → List Nat × Nat
  | acc, [], remaining => (acc, remaining)
  | acc, b :: bs, remaining =>
    if 0 < remaining then pushAvail (acc ++ [b]) bs (remaining - 1)
    else pushAvail acc bs remaining

/-- The dump loop over the non-first words (`is_first = false` arm): all 32
big-endian bytes of each word are offered to `pushAvail`. -/
def dumpRest : List Nat → List Nat → Nat → List Nat
  | [], acc, _ => acc
  | w :: ws, acc, remaining =>
    let p := pushAvail acc (into_be_iter w) remaining
    dumpRest ws p.1 p.2

/-- The full dump loop of `dump_memory_page_by_offset_and_length`: the first
word's bytes are offered after skipping the `unalignment` prefix
(`it.skip(unalignment)`), subsequent words in full. -/
def dumpWords (unalignment : Nat) (page_part : List Nat) (length : Nat) : List Nat :=
  match page_part with
  | [] => []
  | w :: ws =>
    let p := pushAvail [] ((into_be_iter w).drop unalignment) length
    dumpRest ws p.1 p.2

/-- `dump_memory_page_by_offset_and_length` of `vm_m5/utils.rs`.  The two
`assert!` bound checks and the final `assert_eq!` length postcondition are
modelled by returning `none` (panic). -/
def dump_memory_page_by_offset_and_length (memory : Nat → Nat → Nat) (page offset length : Nat) :
    Option (List Nat) :=
  if offset < 2 ^ 24 then
    if length < 2 ^ 24 then
      if length = 0 then some []
      else
        let first_word := offset / 32
        let end_byte := offset + length
        let last_word := end_byte / 32 + (if end_byte % 32 ≠ 0 then 1 else 0)
        let unalignment := offset % 32
        let page_part := dump_page_content_as_u256_words memory page first_word last_word
        let dump := dumpWords unalignment page_part length
        if dump.length = length then some dump else none
    else none
  else none

/-- `FatPointer` of `zk_evm::zkevm_opcode_defs` (an external collaborator of
`vm_m5/utils.rs`): four 32-bit fields. -/
structure FatPointer where
  offset : Nat
  memory_page : Nat
  start : Nat
  length : Nat
deriving Repr, DecidableEq

/-- `FatPointer::from_u256`: the four fields are the four low 32-bit limbs of
the word, lowest first: `offset`, `memory_page`, `start`, `length`. -/
def FatPointer.from_u256 (v : Nat) : FatPointer where
  offset := v % 2 ^ 32
  memory_page := v / 2 ^ 32 % 2 ^ 32
  start := v / 2 ^ 64 % 2 ^ 32
  length := v / 2 ^ 96 % 2 ^ 32

/-- `dump_memory_page_using_fat_pointer` of `vm_m5/utils.rs`: dumps the page
window starting at `start + offset` of length `length - offset`.  Both are
`u32` operations; `u32` overflow/underflow aborts the program (modelled as
`none`). -/
def dump_memory_page_using_fat_pointer (memory : Nat → Nat → Nat) (fat_ptr : FatPointer) :
    Option (List Nat) :=
  if fat_ptr.offset ≤ fat_ptr.length then
    if fat_ptr.start + fat_ptr.offset < 2 ^ 32 then
      dump_memory_page_by_offset_and_length memory fat_ptr.memory_page
        (fat_ptr.start + fat_ptr.offset) (fat_ptr.length - fat_ptr.offset)
    else none
  else none

/-- `PrimitiveValue` of `zk_evm::vm_state` (external collaborator): a 256-bit
value together with its pointer tag. -/
structure PrimitiveValue where
  value : Nat
  is_pointer : Bool
deriving Repr, DecidableEq

/-- `dump_memory_page_using_primitive_value` of `vm_m5/utils.rs`: a non-pointer
value yields the empty byte string; a pointer value is decoded as a fat
pointer and its window dumped. -/
def dump_memory_page_using_primitive_value (memory : Nat → Nat → Nat) (ptr : PrimitiveValue) :
    Option (List Nat) :=
  if !ptr.is_pointer then some []
  else dump_memory_page_using_fat_pointer memory (FatPointer.from_u256 ptr.value)

/-- Modelled from the spec: `bytecode_len_in_words`
(`crate::utils::bytecode`, not under the examined sources) — recomputes the
bytecode length in words from the code hash alone; in the repository's
versioned code-hash format the length in words is stored as a big-endian
`u16` in bytes 2 and 3 of the 32-byte hash, i.e. bits 224..240. -/
def bytecode_len_in_words (hash : Nat) : Nat := hash / 2 ^ 224 % 2 ^ 16

/-! ### Timestamp suffix utilities (`vm_m5/utils.rs`)

Timestamps are modelled as `Nat` (`Timestamp` is a newtype over `u32`; the
`glue_into()` conversion between the per-version `Timestamp` newtypes is the
identity on the underlying value). -/

/-- `LogQuery` of `zk_evm::aux_structures` (external collaborator): only the
timestamp is inspected by this core; the remaining payload fields are
abstracted into `data`. -/
structure LogQuery where
  timestamp : Nat
  data : Nat
deriving Repr, DecidableEq

/-- `StorageLogKind` of `zksync_types` (external collaborator). -/
inductive StorageLogKind where
  | Read
  | InitialWrite
  | RepeatedWrite
deriving Repr, DecidableEq

/-- `StorageLogQuery` of `vm_m5/utils.rs`: a log query together with its
write classification. -/
structure StorageLogQuery where
  log_query : LogQuery
  log_type : StorageLogKind
deriving Repr, DecidableEq

/-- `collect_storage_log_queries_after_timestamp`: reverse, take while
`log_query.timestamp >= from_timestamp`, reverse back. -/
def collect_storage_log_queries_after_timestamp (all_log_queries : List StorageLogQuery)
    (from_timestamp : Nat) : List StorageLogQuery :=
  (all_log_queries.reverse.takeWhile fun log_query =>
    decide (log_query.log_query.timestamp ≥ from_timestamp)).reverse

/-- `collect_log_queries_after_timestamp`: reverse, take while
`timestamp >= from_timestamp`, reverse back. -/
def collect_log_queries_after_timestamp (all_log_queries : List LogQuery)
    (from_timestamp : Nat) : List LogQuery :=
  (all_log_queries.reverse.takeWhile fun log_query =>
    decide (log_query.timestamp ≥ from_timestamp)).reverse

/-- The loop of Rust `slice::binary_search_by` specialised to a predicate
comparator that never answers `Equal` (which is exactly
`slice::partition_point`): maintain `[left, right)`, probe
`mid = left + (right - left) / 2`, and narrow to the half determined by the
predicate.  Out-of-range reads (which the loop never performs) default to 0. -/
def partition_point_go (ts : List Nat) (pred : Nat → Bool) (left right : Nat) : Nat :=
  if _h : left < right then
    let mid := left + (right - left) / 2
    if pred (ts.getD mid 0) then partition_point_go ts pred (mid + 1) right
    else partition_point_go ts pred left mid
  else left
termination_by right - left
decreasing_by
  · omega
  · simp only [mid] at *
    omega

/-- Rust `slice::partition_point` (std, called by
`precompile_calls_count_after_timestamp`): binary search for the length of
the predicate-satisfying prefix of a partitioned slice. -/
def partition_point (ts : List Nat) (pred : Nat → Bool) : Nat :=
  partition_point_go ts pred 0 ts.length

/-- `precompile_calls_count_after_timestamp` of `vm_m5/utils.rs`:
`len - partition_point(|t| t < from_timestamp)`. -/
def precompile_calls_count_after_timestamp (sorted_timestamps : List Nat)
    (from_timestamp : Nat) : Nat :=
  sorted_timestamps.length -
    partition_point sorted_timestamps fun t => decide (t < from_timestamp)

/-! ### History recorder (modelled from the spec, §4.1)

`HistoryRecorder` lives in `vm_m6/history_recorder.rs`, which is not among
the examined sources; it is modelled from the spec: a wrapped container plus
an ordered-by-timestamp log of `{timestamp, key, previous_value_or_absence}`
entries; `insert` records the prior state then sets; `rollback_to_timestamp t`
pops entries from the end while their timestamp ≥ `t`, restoring each popped
entry's prior state (absence as removal).  The decommitter claims exercised
here all run with history enabled (`H = HistoryEnabled`, the only mode for
which `OracleWithHistory::rollback_to_timestamp` is implemented), so history
is always recorded.  `HashMap` containers are modelled as association lists
(`set` replaces in place or appends; `remove` filters); the most recent log
entry is at the head of the `history` list. -/

/-- `HashMap` lookup on the association-list model. -/
def amGet {β : Type} (m : List (Nat × β)) (k : Nat) : Option β := m.lookup k

/-- `HashMap` insert on the association-list model: replace in place, or
append a fresh binding. -/
def amSet {β : Type} (m : List (Nat × β)) (k : Nat) (v : β) : List (Nat × β) :=
  if (m.lookup k).isSome then m.map fun p => if p.1 = k then (k, v) else p
  else m ++ [(k, v)]

/-- `HashMap` removal on the association-list model. -/
def amRemove {β : Type} (m : List (Nat × β)) (k : Nat) : List (Nat × β) :=
  m.filter fun p => p.1 != k

/-- A history-enabled recorder over a keyed map: the current container plus
the log of `(timestamp, key, previous value or absence)` entries, most
recent first. -/
structure HistoryRecorder (β : Type) where
  inner : List (Nat × β)
  history : List (Nat × Nat × Option β)
deriving Repr, DecidableEq

/-- Fresh empty recorder (`Default::default()`). -/
def HistoryRecorder.empty {β : Type} : HistoryRecorder β := ⟨[], []⟩

/-- `HistoryRecorder::insert`: log the prior state of the key under the given
timestamp, then set the key. -/
def HistoryRecorder.insert {β : Type} (r : HistoryRecorder β) (k : Nat) (v : β) (t : Nat) :
    HistoryRecorder β :=
  { inner := amSet r.inner k v, history := (t, k, amGet r.inner k) :: r.history }

/-- The rollback loop: pop log entries while their timestamp ≥ `t`, restoring
each entry's recorded prior state into the container. -/
def hrRollbackGo {β : Type} (inner : List (Nat × β)) :
    List (Nat × Nat × Option β) → Nat → List (Nat × β) × List (Nat × Nat × Option β)
  | [], _ => (inner, [])
  | (ts, k, prev) :: rest, t =>
    if ts ≥ t then
      hrRollbackGo (match prev with | none => amRemove inner k | some v => amSet inner k v) rest t
    else (inner, (ts, k, prev) :: rest)

/-- `HistoryRecorder::rollback_to_timestamp`. -/
def HistoryRecorder.rollback_to_timestamp {β : Type} (r : HistoryRecorder β) (t : Nat) :
    HistoryRecorder β :=
  let p := hrRollbackGo r.inner r.history t
  { inner := p.1, history := p.2 }

/-- The `decommitment_requests` recorder (`HistoryRecorder<Vec<()>, H>`): a
vector of units with a push log; modelled as the units plus the list of push
timestamps, most recent first. -/
structure RequestsRecorder where
  inner : List Unit
  history : List Nat
deriving Repr, DecidableEq

/-- Fresh empty request log. -/
def RequestsRecorder.empty : RequestsRecorder := ⟨[], []⟩

/-- `HistoryRecorder::push` on the vector recorder: append the element and
log the push under the given timestamp. -/
def RequestsRecorder.push (r : RequestsRecorder) (t : Nat) : RequestsRecorder :=
  ⟨() :: r.inner, t :: r.history⟩

/-- The vector recorder's rollback loop: pop pushes while their timestamp ≥ `t`. -/
def rrRollbackGo (inner : List Unit) : List Nat → Nat → List Unit × List Nat
  | [], _ => (inner, [])
  | ts :: rest, t =>
    if ts ≥ t then rrRollbackGo inner.tail rest t
    else (inner, ts :: rest)

/-- `rollback_to_timestamp` on the vector recorder. -/
def RequestsRecorder.rollback_to_timestamp (r : RequestsRecorder) (t : Nat) : RequestsRecorder :=
  let p := rrRollbackGo r.inner r.history t
  ⟨p.1, p.2⟩

/-! ### Decommitter oracle (`vm_m6/oracles/decommitter.rs`) -/

/-- `DecommitterOracle<B, S, HistoryEnabled>`.  Code hashes and 256-bit words
are `Nat`; the `Storage` collaborator is its `load_factory_dep` capability, a
function from hash to optional raw bytes.  The witness-mode const generic `B`
is passed to `decommit_into_memory` explicitly. -/
structure DecommitterOracle where
  storage : Nat → Option (List Nat)
  known_bytecodes : HistoryRecorder (List Nat)
  decommitted_code_hashes : HistoryRecorder Nat
  decommitment_requests : RequestsRecorder

/-- `DecommitterOracle::new`. -/
def DecommitterOracle.new (storage : Nat → Option (List Nat)) : DecommitterOracle :=
  ⟨storage, HistoryRecorder.empty, HistoryRecorder.empty, RequestsRecorder.empty⟩

/-- `DecommitterOracle::get_bytecode`: consult the `known_bytecodes` cache;
on a miss, fetch the raw bytes from storage (panic — `none` — if absent),
convert to big-endian words, memoize under the call's timestamp, and return
the words together with the updated oracle. -/
def DecommitterOracle.get_bytecode (s : DecommitterOracle) (hash timestamp : Nat) :
    Option (List Nat × DecommitterOracle) :=
  match amGet s.known_bytecodes.inner hash with
  | some x => some (x, s)
  | none =>
    match s.storage hash with
    | none => none
    | some bytes =>
      let value := bytes_to_be_words bytes
      some (value, { s with known_bytecodes := s.known_bytecodes.insert hash value timestamp })

/-- `DecommitterOracle::populate`: seed additional bytecodes into the cache. -/
def DecommitterOracle.populate (s : DecommitterOracle) (bytecodes : List (Nat × List Nat))
    (timestamp : Nat) : DecommitterOracle :=
  bytecodes.foldl
    (fun s p => { s with known_bytecodes := s.known_bytecodes.insert p.1 p.2 timestamp }) s

/-- `OracleWithHistory::rollback_to_timestamp`: delegate to both history
recorders and the request log. -/
def DecommitterOracle.rollback_to_timestamp (s : DecommitterOracle) (timestamp : Nat) :
    DecommitterOracle :=
  { s with
    decommitted_code_hashes := s.decommitted_code_hashes.rollback_to_timestamp timestamp
    known_bytecodes := s.known_bytecodes.rollback_to_timestamp timestamp
    decommitment_requests := s.decommitment_requests.rollback_to_timestamp timestamp }

/-- `DecommittmentQuery` of `zk_evm::aux_structures`: `decommitted_length`
is a `u16` field, `memory_page` a `u32` page id. -/
structure DecommittmentQuery where
  hash : Nat
  timestamp : Nat
  memory_page : Nat
  decommitted_length : Nat
  is_fresh : Bool
deriving Repr, DecidableEq

/-- `DecommitterOracle::decommit_into_memory`.  Returns the completed query,
the optional word sequence (`Some` only in witness mode `B`), the list of
`specialized_code_query` memory writes performed (word index, value — the
index is the `i as u32` cast of the loop counter), and the updated oracle;
`none` models the `get_bytecode` panic. -/
def DecommitterOracle.decommit_into_memory (s : DecommitterOracle) (B : Bool)
    (partial_query : DecommittmentQuery) :
    Option (DecommittmentQuery × Option (List Nat) × List (Nat × Nat) × DecommitterOracle) :=
  let s := { s with
    decommitment_requests := s.decommitment_requests.push partial_query.timestamp }
  match amGet s.decommitted_code_hashes.inner partial_query.hash with
  | some memory_page =>
    some ({ partial_query with
        is_fresh := false
        memory_page := memory_page
        decommitted_length := bytecode_len_in_words partial_query.hash },
      none, [], s)
  | none =>
    match s.get_bytecode partial_query.hash partial_query.timestamp with
    | none => none
    | some (values, s) =>
      let page_to_use := partial_query.memory_page
      let timestamp := partial_query.timestamp
      let partial_query := { partial_query with
        decommitted_length := values.length % 2 ^ 16
        is_fresh := true }
      let s := { s with
        decommitted_code_hashes :=
          s.decommitted_code_hashes.insert partial_query.hash page_to_use timestamp }
      let writes := values.enum.map fun p => (p.1 % 2 ^ 32, p.2)
      some (partial_query, if B then some values else none, writes, s)

/-! ### Codec lemmas -/

theorem beBytes_length (n w : Nat) : (beBytes n w).length = n := by
  induction n generalizing w with
  | zero => rfl
  | succ n ih => simp [beBytes, ih]

theorem into_be_iter_length (w : Nat) : (into_be_iter w).length = 32 :=
  beBytes_length 32 w

theorem beVal_append_singleton (l : List Nat) (b : Nat) :
    beVal (l ++ [b]) = 256 * beVal l + b := by
  simp [beVal, List.foldl_append]

/-- Big-endian round trip: decoding the value of a byte string recovers the
byte string. -/
theorem beBytes_beVal (l : List Nat) (hb : ∀ b ∈ l, b < 256) :
    beBytes l.length (beVal l) = l := by
  induction l using List.reverseRecOn with
  | nil => rfl
  | append_singleton l b ih =>
    have hb' : ∀ x ∈ l, x < 256 := fun x hx => hb x (by simp [hx])
    have hblt : b < 256 := hb b (by simp)
    have hv : beVal (l ++ [b]) = 256 * beVal l + b := beVal_append_singleton l b
    have hdiv : beVal (l ++ [b]) / 256 = beVal l := by
      rw [hv, Nat.mul_add_div (by norm_num : (0:Nat) < 256), Nat.div_eq_of_lt hblt]
      omega
    have hmod : beVal (l ++ [b]) % 256 = b := by
      rw [hv, Nat.add_comm, Nat.add_mul_mod_self_left, Nat.mod_eq_of_lt hblt]
    have hlen : (l ++ [b]).length = l.length + 1 := by simp
    rw [hlen, beBytes, hdiv, hmod, ih hb']

/-- `into_be_iter` inverts `beWord` on chunks of at most 32 valid bytes,
producing the chunk padded with zeros on the right. -/
theorem into_be_iter_beWord (chunk : List Nat) (hb : ∀ b ∈ chunk, b < 256)
    (hl : chunk.length ≤ 32) :
    into_be_iter (beWord chunk) = chunk ++ List.replicate (32 - chunk.length) 0 := by
  have hb' : ∀ b ∈ chunk ++ List.replicate (32 - chunk.length) 0, b < 256 := by
    intro b hbm
    rcases List.mem_append.1 hbm with h | h
    · exact hb b h
    · have := List.eq_of_mem_replicate h
      omega
  have hlen : (chunk ++ List.replicate (32 - chunk.length) 0).length = 32 := by
    simp [List.length_replicate]
    omega
  have := beBytes_beVal (chunk ++ List.replicate (32 - chunk.length) 0) hb'
  rw [hlen] at this
  simpa [into_be_iter, beWord] using this

theorem bytes_to_be_words_nil : bytes_to_be_words [] = [] := by
  rw [bytes_to_be_words]
  simp

theorem bytes_to_be_words_ne_nil (l : List Nat) (h : l ≠ []) :
    bytes_to_be_words l = beWord (l.take 32) :: bytes_to_be_words (l.drop 32) := by
  rw [bytes_to_be_words]
  simp [h]

/-- A byte string of length `m` produces `⌈m / 32⌉` words. -/
theorem length_bytes_to_be_words (l : List Nat) :
    (bytes_to_be_words l).length = (l.length + 31) / 32 := by
  induction l using bytes_to_be_words.induct with
  | case1 => simp [bytes_to_be_words_nil]
  | case2 l hemp ih =>
    rw [bytes_to_be_words_ne_nil l hemp]
    have hpos : 0 < l.length := List.length_pos.2 hemp
    simp only [List.length_cons, ih, List.length_drop]
    omega

/-- The word sequence of a byte string flattens back (in big-endian bytes) to
the byte string followed by its zero padding. -/
theorem flatten_bytes_to_be_words (l : List Nat) (hb : ∀ b ∈ l, b < 256) :
    ((bytes_to_be_words l).map into_be_iter).flatten =
      l ++ List.replicate (32 * (bytes_to_be_words l).length - l.length) 0 := by
  induction l using bytes_to_be_words.induct with
  | case1 => simp [bytes_to_be_words_nil]
  | case2 l hemp ih =>
    have hb32 : ∀ b ∈ l.take 32, b < 256 := fun b hbm => hb b (List.mem_of_mem_take hbm)
    have hbdrop : ∀ b ∈ l.drop 32, b < 256 := fun b hbm => hb b (List.mem_of_mem_drop hbm)
    have htlen : (l.take 32).length ≤ 32 := by simp [List.length_take]
    rw [bytes_to_be_words_ne_nil l hemp]
    simp only [List.map_cons, List.flatten_cons,
      into_be_iter_beWord (l.take 32) hb32 htlen, ih hbdrop]
    by_cases h32 : l.length ≤ 32
    · have hdrop : l.drop 32 = [] := List.drop_eq_nil_of_le h32
      have htake : l.take 32 = l := List.take_of_length_le h32
      rw [hdrop, htake, bytes_to_be_words_nil]
      simp only [List.map_nil, List.flatten_nil, List.append_nil, List.length_cons,
        List.length_nil, Nat.mul_zero, Nat.sub_zero, List.replicate_zero, List.nil_append]
    · push_neg at h32
      have htlen' : (l.take 32).length = 32 := by simp [List.length_take]; omega
      have hk := length_bytes_to_be_words (l.drop 32)
      have hdlen : (l.drop 32).length = l.length - 32 := by simp
      rw [htlen']
      have hrepl : (32:Nat) - 32 = 0 := rfl
      rw [hrepl, List.replicate_zero, List.append_nil, ← List.append_assoc,
        List.take_append_drop]
      congr 2
      simp only [List.length_cons, hk, hdlen]
      omega

theorem length_bytes_to_be_words_ge (l : List Nat) :
    l.length ≤ 32 * (bytes_to_be_words l).length := by
  rw [length_bytes_to_be_words]
  omega

/-! ### Dump-loop lemmas -/

theorem pushAvail_eq (bs : List Nat) :
    ∀ (acc : List Nat) (r : Nat), pushAvail acc bs r = (acc ++ bs.take r, r - bs.length) := by
  induction bs with
  | nil => intro acc r; simp [pushAvail]
  | cons b bs ih =>
    intro acc r
    by_cases hr : 0 < r
    · have hr' : r = (r - 1) + 1 := by omega
      rw [pushAvail, if_pos hr, ih]
      rw [hr']
      simp [List.take_succ_cons]
    · have hr0 : r = 0 := by omega
      subst hr0
      rw [pushAvail, if_neg hr, ih]
      simp

theorem dumpRest_eq (ws : List Nat) :
    ∀ (acc : List Nat) (r : Nat),
      dumpRest ws acc r = acc ++ ((ws.map into_be_iter).flatten.take r) := by
  induction ws with
  | nil => intro acc r; simp [dumpRest]
  | cons w ws ih =>
    intro acc r
    rw [dumpRest]
    simp only [pushAvail_eq, ih]
    rw [List.map_cons, List.flatten_cons, List.take_append_eq_append_take,
      into_be_iter_length, List.append_assoc]

theorem dumpWords_eq (u : Nat) (hu : u ≤ 32) (page_part : List Nat) (len : Nat) :
    dumpWords u page_part len = ((page_part.map into_be_iter).flatten.drop u).take len := by
  cases page_part with
  | nil => simp [dumpWords]
  | cons w ws =>
    rw [dumpWords]
    simp only [pushAvail_eq, dumpRest_eq]
    rw [List.map_cons, List.flatten_cons, List.drop_append_eq_append_drop,
      List.take_append_eq_append_take, into_be_iter_length,
      List.length_drop, into_be_iter_length]
    have hz : u - 32 = 0 := by omega
    rw [hz, List.drop_zero]
    congr 2 <;> omega

/-- Flattening a uniform 32-byte list commutes with `drop` (scaled by 32). -/
theorem flatten_drop_32 (L : List (List Nat)) (h : ∀ x ∈ L, x.length = 32) (k : Nat) :
    (L.drop k).flatten = L.flatten.drop (32 * k) := by
  induction k generalizing L with
  | zero => simp
  | succ k ih =>
    cases L with
    | nil => simp
    | cons a t =>
      have ha : a.length = 32 := h a (by simp)
      have ht : ∀ x ∈ t, x.length = 32 := fun x hx => h x (by simp [hx])
      rw [List.drop_succ_cons, ih t ht, List.flatten_cons,
        List.drop_append_eq_append_drop, ha]
      have h1 : 32 * (k + 1) - 32 = 32 * k := by omega
      have h2 : a.drop (32 * (k + 1)) = [] := by
        apply List.drop_eq_nil_of_le
        omega
      rw [h1, h2, List.nil_append]

/-- Flattening a uniform 32-byte list commutes with `take` (scaled by 32). -/
theorem flatten_take_32 (L : List (List Nat)) (h : ∀ x ∈ L, x.length = 32) (k : Nat) :
    (L.take k).flatten = L.flatten.take (32 * k) := by
  induction k generalizing L with
  | zero => simp
  | succ k ih =>
    cases L with
    | nil => simp
    | cons a t =>
      have ha : a.length = 32 := h a (by simp)
      have ht : ∀ x ∈ t, x.length = 32 := fun x hx => h x (by simp [hx])
      rw [List.take_succ_cons, List.flatten_cons, List.flatten_cons, ih t ht,
        List.take_append_eq_append_take, ha]
      have h1 : 32 * (k + 1) - 32 = 32 * k := by omega
      have h2 : a.take (32 * (k + 1)) = a := by
        apply List.take_of_length_le
        omega
      rw [h1, h2]

theorem length_flatten_32 (L : List (List Nat)) (h : ∀ x ∈ L, x.length = 32) :
    L.flatten.length = 32 * L.length := by
  induction L with
  | nil => simp
  | cons a t ih =>
    have ha : a.length = 32 := h a (by simp)
    have ht : ∀ x ∈ t, x.length = 32 := fun x hx => h x (by simp [hx])
    simp only [List.flatten_cons, List.length_append, ha, ih ht, List.length_cons]
    omega

/-- The word-range read of a page backed by the word list `ws` is the
corresponding `drop`/`take` slice of `ws`, as long as the range stays within
the page. -/
theorem dump_page_content_eq (ws : List Nat) (page first last : Nat)
    (h : last ≤ ws.length) :
    dump_page_content_as_u256_words (fun _ i => ws.getD i 0) page first last =
      (ws.drop first).take (last - first) := by
  apply List.ext_getElem
  · simp [dump_page_content_as_u256_words, List.length_take, List.length_drop]
    omega
  · intro i h1 h2
    simp only [dump_page_content_as_u256_words, List.length_map, List.length_range] at h1
    have hfi : first + i < ws.length := by omega
    simp only [dump_page_content_as_u256_words, List.getElem_map, List.getElem_range,
      List.getElem_take, List.getElem_drop]
    exact List.getD_eq_getElem ws 0 hfi

/-- Key dump lemma: on a page backed by the word list `ws`, an in-bounds
window dump returns exactly the requested byte slice of the page's big-endian
byte content. -/
theorem dump_eq_slice (ws : List Nat) (page offset length : Nat)
    (ho : offset < 2 ^ 24) (hl : length < 2 ^ 24)
    (hin : offset + length ≤ 32 * ws.length) :
    dump_memory_page_by_offset_and_length (fun _ i => ws.getD i 0) page offset length =
      some (((ws.map into_be_iter).flatten.drop offset).take length) := by
  rw [dump_memory_page_by_offset_and_length, if_pos ho, if_pos hl]
  by_cases h0 : length = 0
  · subst h0
    simp
  · rw [if_neg h0]
    dsimp only
    have h32 : ∀ x ∈ ws.map into_be_iter, x.length = 32 := by
      intro x hx
      rcases List.mem_map.1 hx with ⟨w, _, rfl⟩
      exact into_be_iter_length w
    set first_word := offset / 32 with hfw
    set end_byte := offset + length with heb
    set last_word := end_byte / 32 + (if end_byte % 32 ≠ 0 then 1 else 0) with hlw
    have hlast_le : last_word ≤ ws.length := by
      rw [hlw]
      by_cases hm : end_byte % 32 ≠ 0 <;> simp [hm] <;> omega
    have hlast_ge : end_byte ≤ 32 * last_word := by
      rw [hlw]
      by_cases hm : end_byte % 32 ≠ 0 <;> simp [hm] <;> omega
    have hfw_le : first_word ≤ last_word := by
      rw [hlw, hfw, heb]
      by_cases hm : end_byte % 32 ≠ 0 <;> simp [hm] <;> omega
    rw [dump_page_content_eq ws page first_word last_word hlast_le]
    rw [dumpWords_eq (offset % 32) (by omega) _ length]
    rw [List.map_take, List.map_drop, flatten_take_32 _ (by
      intro x hx
      exact h32 x (List.mem_of_mem_drop hx)) _,
      flatten_drop_32 _ h32 _]
    set F := (ws.map into_be_iter).flatten with hF
    have hFlen : F.length = 32 * ws.length := by
      rw [hF, length_flatten_32 _ h32]
      simp
    rw [List.drop_take, List.drop_drop]
    have h1 : 32 * first_word + offset % 32 = offset := by
      rw [hfw]
      omega
    rw [h1]
    have h2 : 32 * (last_word - first_word) - offset % 32 = 32 * last_word - offset := by
      rw [hfw]
      omega
    rw [h2, List.take_take]
    have h3 : length ⊓ (32 * last_word - offset) = length := inf_eq_left.2 (by omega)
    rw [h3]
    have hdlen : ((F.drop offset).take length).length = length := by
      rw [List.length_take, List.length_drop, hFlen]
      exact inf_eq_left.2 (by omega)
    rw [if_pos hdlen]

/-- For in-bounds offset and length the two bound assertions and the final
length postcondition always pass, whatever the memory content. -/
theorem dump_isSome (memory : Nat → Nat → Nat) (page offset length : Nat)
    (ho : offset < 2 ^ 24) (hl : length < 2 ^ 24) :
    (dump_memory_page_by_offset_and_length memory page offset length).isSome := by
  rw [dump_memory_page_by_offset_and_length, if_pos ho, if_pos hl]
  by_cases h0 : length = 0
  · subst h0
    simp
  · rw [if_neg h0]
    dsimp only
    set first_word := offset / 32 with hfw
    set end_byte := offset + length with heb
    set last_word := end_byte / 32 + (if end_byte % 32 ≠ 0 then 1 else 0) with hlw
    set pp := dump_page_content_as_u256_words memory page first_word last_word with hpp
    have hpplen : pp.length = last_word - first_word := by
      simp [hpp, dump_page_content_as_u256_words]
    have h32' : ∀ x ∈ pp.map into_be_iter, x.length = 32 := by
      intro x hx
      rcases List.mem_map.1 hx with ⟨w, _, rfl⟩
      exact into_be_iter_length w
    rw [dumpWords_eq (offset % 32) (by omega) pp length]
    have hFlen : ((pp.map into_be_iter).flatten).length = 32 * pp.length := by
      have := length_flatten_32 (pp.map into_be_iter) h32'
      simpa using this
    have hlast_ge : end_byte ≤ 32 * last_word := by
      rw [hlw]
      by_cases hm : end_byte % 32 ≠ 0 <;> simp [hm] <;> omega
    have hfw_le : first_word ≤ last_word := by
      rw [hlw, hfw, heb]
      by_cases hm : end_byte % 32 ≠ 0 <;> simp [hm] <;> omega
    have hdlen : ((((pp.map into_be_iter).flatten).drop (offset % 32)).take length).length
        = length := by
      rw [List.length_take, List.length_drop, hFlen, hpplen]
      refine inf_eq_left.2 ?_
      omega
    rw [hdlen, if_pos rfl]
    rfl

/-- Bytes-level dump lemma: on a page holding the bytes `B` laid out as
big-endian 32-byte words, an in-bounds window dump returns exactly the byte
slice `[offset, offset + length)` of `B`. -/
theorem dump_bytes_eq_slice (B : List Nat) (page offset length : Nat)
    (hb : ∀ b ∈ B, b < 256) (ho : offset < 2 ^ 24) (hl : length < 2 ^ 24)
    (hin : offset + length ≤ B.length) :
    dump_memory_page_by_offset_and_length (fun _ i => (bytes_to_be_words B).getD i 0)
        page offset length =
      some ((B.drop offset).take length) := by
  have hge := length_bytes_to_be_words_ge B
  rw [dump_eq_slice (bytes_to_be_words B) page offset length ho hl (by omega)]
  rw [flatten_bytes_to_be_words B hb]
  rw [List.drop_append_eq_append_drop]
  have hoff : offset ≤ B.length := by omega
  rw [List.take_append_of_le_length (by
    rw [List.length_drop]
    omega)]

/-! ### Sorted-suffix lemmas -/

/-- On a list along which the predicate is upward closed (an element
satisfying `p` forces all later elements to satisfy `p` — the shape
sortedness gives to a threshold predicate), taking from the reversed list
while `p` holds and reversing back is exactly filtering. -/
theorem takeWhile_reverse_eq_filter {α : Type} (p : α → Bool) (l : List α)
    (h : List.Pairwise (fun a b => p a = true → p b = true) l) :
    (l.reverse.takeWhile p).reverse = l.filter p := by
  induction l using List.reverseRecOn with
  | nil => simp
  | append_singleton l a ih =>
    have hl : List.Pairwise (fun a b => p a = true → p b = true) l :=
      (List.pairwise_append.1 h).1
    have hal : ∀ x ∈ l, p x = true → p a = true := by
      intro x hx
      exact (List.pairwise_append.1 h).2.2 x hx a (by simp)
    rw [List.reverse_append, List.reverse_singleton, List.singleton_append,
      List.takeWhile_cons, List.filter_append]
    by_cases hpa : p a = true
    · rw [if_pos hpa, List.reverse_cons, ih hl]
      simp [hpa]
    · rw [if_neg hpa]
      have hnil : l.filter p = [] := List.filter_eq_nil_iff.2 fun x hx hpx => by
        have := hal x hx hpx
        simp_all
      simp [hnil, hpa]

/-- A prefix-count characterization of `countP`: if exactly the first `k`
positions satisfy `p`, then `countP p` is `k`. -/
theorem countP_eq_of_front_run {α : Type} (p : α → Bool) (l : List α) (k : Nat)
    (hk : k ≤ l.length)
    (h1 : ∀ i (h : i < l.length), i < k → p l[i] = true)
    (h2 : ∀ i (h : i < l.length), k ≤ i → p l[i] = false) :
    l.countP p = k := by
  have hsplit : l = l.take k ++ l.drop k := (List.take_append_drop k l).symm
  rw [hsplit, List.countP_append]
  have ht : (l.take k).countP p = (l.take k).length := by
    rw [List.countP_eq_length]
    intro a ha
    rcases List.mem_iff_getElem.1 ha with ⟨i, hi, rfl⟩
    have hi' : i < l.length := by
      have := hi
      rw [List.length_take] at this
      omega
    rw [List.getElem_take]
    exact h1 i hi' (by
      have := hi
      rw [List.length_take] at this
      omega)
  have hd : (l.drop k).countP p = 0 := by
    rw [List.countP_eq_zero]
    intro a ha
    rcases List.mem_iff_getElem.1 ha with ⟨i, hi, rfl⟩
    have hi' : k + i < l.length := by
      have := hi
      rw [List.length_drop] at this
      omega
    rw [List.getElem_drop]
    have := h2 (k + i) hi' (by omega)
    simp [this]
  rw [ht, hd, List.length_take]
  omega

/-- Unfolding of the binary-search loop on a live interval. -/
theorem partition_point_go_lt (ts : List Nat) (p : Nat → Bool) (left right : Nat)
    (h : left < right) :
    partition_point_go ts p left right =
      if p (ts.getD (left + (right - left) / 2) 0) then
        partition_point_go ts p (left + (right - left) / 2 + 1) right
      else partition_point_go ts p left (left + (right - left) / 2) := by
  rw [partition_point_go, dif_pos h]

/-- Correctness of the binary-search loop on a partitioned list: starting
from an interval whose outside is already decided, it returns the length of
the `p`-prefix, i.e. `countP p`. -/
theorem partition_point_go_eq (ts : List Nat) (p : Nat → Bool)
    (hp : ∀ i j, i ≤ j → j < ts.length → p (ts.getD j 0) = true → p (ts.getD i 0) = true) :
    ∀ left right, left ≤ right → right ≤ ts.length →
      (∀ i (h : i < ts.length), i < left → p ts[i] = true) →
      (∀ i (h : i < ts.length), right ≤ i → p ts[i] = false) →
      partition_point_go ts p left right = ts.countP p := by
  intro left right
  induction left, right using partition_point_go.induct ts p with
  | case1 left right hlr mid hpred ih =>
    intro _hle hr h1 h2
    have hpred' : p (ts.getD (left + (right - left) / 2) 0) = true := hpred
    have ih' : left + (right - left) / 2 + 1 ≤ right → right ≤ ts.length →
        (∀ i (h : i < ts.length), i < left + (right - left) / 2 + 1 → p ts[i] = true) →
        (∀ i (h : i < ts.length), right ≤ i → p ts[i] = false) →
        partition_point_go ts p (left + (right - left) / 2 + 1) right = ts.countP p := ih
    rw [partition_point_go_lt ts p left right hlr, if_pos hpred']
    apply ih' (by omega) hr _ h2
    intro i hi hilt
    by_cases hil : i < left
    · exact h1 i hi hil
    · have hres : p (ts.getD i 0) = true :=
        hp i (left + (right - left) / 2) (by omega) (by omega) hpred'
      rw [List.getD_eq_getElem ts 0 hi] at hres
      exact hres
  | case2 left right hlr mid hpred ih =>
    intro _hle hr h1 h2
    have hpred' : ¬p (ts.getD (left + (right - left) / 2) 0) = true := hpred
    have ih' : left ≤ left + (right - left) / 2 → left + (right - left) / 2 ≤ ts.length →
        (∀ i (h : i < ts.length), i < left → p ts[i] = true) →
        (∀ i (h : i < ts.length), left + (right - left) / 2 ≤ i → p ts[i] = false) →
        partition_point_go ts p left (left + (right - left) / 2) = ts.countP p := ih
    rw [partition_point_go_lt ts p left right hlr, if_neg hpred']
    apply ih' (by omega) (by omega) h1
    intro i hi hile
    by_cases ht : p ts[i] = true
    · exfalso
      apply hpred'
      apply hp _ i hile (by omega)
      rw [List.getD_eq_getElem ts 0 hi]
      exact ht
    · simpa using ht
  | case3 left right hlr =>
    intro hle hr h1 h2
    rw [partition_point_go, dif_neg hlr]
    have hk : left = right := by omega
    subst hk
    exact (countP_eq_of_front_run p ts left hr h1 (fun i h hle2 => h2 i h hle2)).symm

/-- `partition_point` on a partitioned list counts the `p`-prefix. -/
theorem partition_point_eq_countP (ts : List Nat) (p : Nat → Bool)
    (hp : ∀ i j, i ≤ j → j < ts.length → p (ts.getD j 0) = true → p (ts.getD i 0) = true) :
    partition_point ts p = ts.countP p := by
  rw [partition_point]
  apply partition_point_go_eq ts p hp 0 ts.length (Nat.zero_le _) (le_refl _)
  · intro i hi hilt
    omega
  · intro i hi hile
    omega

/-! ### Claims -/

/-- C2: for every page holding `N` bytes laid out as big-endian 32-byte
words, and every `offset` and `length` below `2 ^ 24` with
`offset + length ≤ N`, `dump_memory_page_by_offset_and_length` returns
exactly the byte slice `[offset, offset + length)` of those bytes, of the
requested length exactly (the `length = 0` case yielding the empty
result). -/
theorem claim_dump_window_exact (B : List Nat) (page offset length : Nat)
    (hb : ∀ b ∈ B, b < 256) (ho : offset < 2 ^ 24) (hl : length < 2 ^ 24)
    (hin : offset + length ≤ B.length) :
    dump_memory_page_by_offset_and_length (fun _ i => (bytes_to_be_words B).getD i 0)
        page offset length =
      some ((B.drop offset).take length) :=
  dump_bytes_eq_slice B page offset length hb ho hl hin

/-- Witness for C2 at a concrete page of 64 bytes, an unaligned window
spanning a word boundary. -/
theorem claim_dump_window_exact_witness :
    (∀ b ∈ List.range 64, b < 256) ∧ 30 < 2 ^ 24 ∧ 10 < 2 ^ 24 ∧
      30 + 10 ≤ (List.range 64).length ∧
      dump_memory_page_by_offset_and_length
          (fun _ i => (bytes_to_be_words (List.range 64)).getD i 0) 5 30 10 =
        some (((List.range 64).drop 30).take 10) :=
  ⟨by decide, by decide, by decide, by decide,
    claim_dump_window_exact (List.range 64) 5 30 10 (by decide) (by decide) (by decide)
      (by decide)⟩

/-- C6: `dump_memory_page_by_offset_and_length` fails fatally exactly when
`offset ≥ 2 ^ 24` or `length ≥ 2 ^ 24` (even when `length = 0`, since the
bound checks precede the zero-length early return); for both below `2 ^ 24`
it returns normally, whatever the memory holds. -/
theorem claim_dump_bounds_enforced (memory : Nat → Nat → Nat) (page offset length : Nat) :
    dump_memory_page_by_offset_and_length memory page offset length = none ↔
      2 ^ 24 ≤ offset ∨ 2 ^ 24 ≤ length := by
  constructor
  · intro h
    by_contra hc
    push_neg at hc
    have hs := dump_isSome memory page offset length (by omega) (by omega)
    rw [h] at hs
    simp at hs
  · intro h
    rw [dump_memory_page_by_offset_and_length]
    rcases h with h | h
    · rw [if_neg (by omega)]
    · by_cases ho : offset < 2 ^ 24
      · rw [if_pos ho, if_neg (by omega)]
      · rw [if_neg ho]

/-- Witness for C6: out-of-bounds offset with zero length aborts; in-bounds
zero-length call does not. -/
theorem claim_dump_bounds_enforced_witness :
    dump_memory_page_by_offset_and_length (fun _ _ => 0) 0 (2 ^ 24) 0 = none ∧
      ¬dump_memory_page_by_offset_and_length (fun _ _ => 0) 0 3 0 = none :=
  ⟨(claim_dump_bounds_enforced (fun _ _ => 0) 0 (2 ^ 24) 0).2 (Or.inl (by decide)),
    fun h => by
      rcases (claim_dump_bounds_enforced (fun _ _ => 0) 0 3 0).1 h with h' | h' <;>
        exact absurd h' (by decide)⟩

/-- C9: `dump_memory_page_using_fat_pointer` computes the window length as
the `u32` subtraction `length - offset`; under `offset ≤ length` (and the
`2 ^ 24` bounds on `start + offset` and `length - offset`, with the window
inside the page) it returns exactly the bytes `[start + offset, start +
length)` of the page; when `offset > length` the subtraction underflows and
the call does not return normally. -/
theorem claim_fat_pointer_dump_spec :
    (∀ (B : List Nat) (ptr : FatPointer),
      (∀ b ∈ B, b < 256) → ptr.offset ≤ ptr.length →
      ptr.start + ptr.offset < 2 ^ 24 → ptr.length - ptr.offset < 2 ^ 24 →
      ptr.start + ptr.length ≤ B.length →
      dump_memory_page_using_fat_pointer (fun _ i => (bytes_to_be_words B).getD i 0) ptr =
        some ((B.drop (ptr.start + ptr.offset)).take (ptr.length - ptr.offset))) ∧
    (∀ (memory : Nat → Nat → Nat) (ptr : FatPointer), ptr.length < ptr.offset →
      dump_memory_page_using_fat_pointer memory ptr = none) := by
  constructor
  · intro B ptr hb hol hso hlo hin
    rw [dump_memory_page_using_fat_pointer, if_pos hol, if_pos (by omega)]
    exact dump_bytes_eq_slice B ptr.memory_page _ _ hb hso hlo (by omega)
  · intro memory ptr h
    rw [dump_memory_page_using_fat_pointer, if_neg (by omega)]

/-- Witness for C9: a valid fat pointer dumps its window; an underflowing
one aborts. -/
theorem claim_fat_pointer_dump_spec_witness :
    dump_memory_page_using_fat_pointer
        (fun _ i => (bytes_to_be_words (List.range 64)).getD i 0) ⟨3, 0, 10, 40⟩ =
      some (((List.range 64).drop 13).take 37) ∧
      dump_memory_page_using_fat_pointer (fun _ _ => 0) ⟨5, 0, 0, 2⟩ = none :=
  ⟨claim_fat_pointer_dump_spec.1 (List.range 64) ⟨3, 0, 10, 40⟩ (by decide) (by decide)
      (by decide) (by decide) (by decide),
    claim_fat_pointer_dump_spec.2 (fun _ _ => 0) ⟨5, 0, 0, 2⟩ (by decide)⟩

/-- C10: `dump_memory_page_using_primitive_value` returns the empty byte
string for every non-pointer value, for every memory (hence without reading
memory); only a pointer value is decoded as a fat pointer and dumped. -/
theorem claim_primitive_value_dump_spec :
    (∀ (memory : Nat → Nat → Nat) (v : Nat),
      dump_memory_page_using_primitive_value memory ⟨v, false⟩ = some []) ∧
    (∀ (memory : Nat → Nat → Nat) (v : Nat),
      dump_memory_page_using_primitive_value memory ⟨v, true⟩ =
        dump_memory_page_using_fat_pointer memory (FatPointer.from_u256 v)) :=
  ⟨fun _ _ => rfl, fun _ _ => rfl⟩

/-- C8: on an input sorted by non-decreasing timestamp,
`collect_log_queries_after_timestamp` (and likewise
`collect_storage_log_queries_after_timestamp`) returns exactly the elements
with timestamp ≥ the threshold, in their original order. -/
theorem claim_collect_after_timestamp_eq_filter (qs : List LogQuery)
    (ss : List StorageLogQuery) (T U : Nat)
    (hq : List.Pairwise (fun a b => a.timestamp ≤ b.timestamp) qs)
    (hs : List.Pairwise (fun a b => a.log_query.timestamp ≤ b.log_query.timestamp) ss) :
    collect_log_queries_after_timestamp qs T =
        qs.filter (fun q => decide (T ≤ q.timestamp)) ∧
      collect_storage_log_queries_after_timestamp ss U =
        ss.filter (fun q => decide (U ≤ q.log_query.timestamp)) := by
  constructor
  · rw [collect_log_queries_after_timestamp]
    apply takeWhile_reverse_eq_filter
    apply hq.imp
    intro a b hab hpa
    simp only [decide_eq_true_eq] at hpa ⊢
    omega
  · rw [collect_storage_log_queries_after_timestamp]
    apply takeWhile_reverse_eq_filter
    apply hs.imp
    intro a b hab hpa
    simp only [decide_eq_true_eq] at hpa ⊢
    omega

/-- Witness for C8 on concrete sorted logs with an interior threshold. -/
theorem claim_collect_after_timestamp_eq_filter_witness :
    collect_log_queries_after_timestamp [⟨1, 10⟩, ⟨3, 11⟩, ⟨3, 12⟩, ⟨7, 13⟩] 3 =
        List.filter (fun q => decide (3 ≤ q.timestamp)) [⟨1, 10⟩, ⟨3, 11⟩, ⟨3, 12⟩, ⟨7, 13⟩] ∧
      collect_storage_log_queries_after_timestamp
          [⟨⟨2, 0⟩, StorageLogKind.InitialWrite⟩, ⟨⟨5, 1⟩, StorageLogKind.RepeatedWrite⟩] 9 =
        List.filter (fun q => decide (9 ≤ q.log_query.timestamp))
          [⟨⟨2, 0⟩, StorageLogKind.InitialWrite⟩, ⟨⟨5, 1⟩, StorageLogKind.RepeatedWrite⟩] :=
  claim_collect_after_timestamp_eq_filter
    [⟨1, 10⟩, ⟨3, 11⟩, ⟨3, 12⟩, ⟨7, 13⟩]
    [⟨⟨2, 0⟩, StorageLogKind.InitialWrite⟩, ⟨⟨5, 1⟩, StorageLogKind.RepeatedWrite⟩]
    3 9 (by decide) (by decide)

/-- C7: on a sorted timestamp slice, the binary-search count
`precompile_calls_count_after_timestamp` agrees with the length of the
linear suffix extraction `collect_log_queries_after_timestamp` applied to
any log-query sequence carrying the same timestamps, for every threshold. -/
theorem claim_precompile_count_eq_collect_length (ts : List Nat) (T : Nat)
    (qs : List LogQuery) (hsorted : List.Pairwise (· ≤ ·) ts)
    (hmap : qs.map (fun q => q.timestamp) = ts) :
    precompile_calls_count_after_timestamp ts T =
      (collect_log_queries_after_timestamp qs T).length := by
  have hp : ∀ i j, i ≤ j → j < ts.length →
      (fun t => decide (t < T)) (ts.getD j 0) = true →
      (fun t => decide (t < T)) (ts.getD i 0) = true := by
    intro i j hij hj hpj
    simp only [decide_eq_true_eq] at hpj ⊢
    rcases Nat.eq_or_lt_of_le hij with rfl | hlt
    · exact hpj
    · have hle := List.pairwise_iff_getElem.1 hsorted i j (by omega) hj hlt
      rw [List.getD_eq_getElem ts 0 (by omega : i < ts.length),
        List.getD_eq_getElem ts 0 hj] at *
      omega
  rw [precompile_calls_count_after_timestamp, partition_point_eq_countP ts _ hp]
  have hqsorted : List.Pairwise
      (fun a b => (fun q => decide (T ≤ q.timestamp)) a = true →
        (fun q => decide (T ≤ q.timestamp)) b = true) qs := by
    have hts : List.Pairwise (fun a b => a.timestamp ≤ b.timestamp) qs := by
      have h2 := hmap ▸ hsorted
      exact List.pairwise_map.1 h2
    apply hts.imp
    intro a b hab hpa
    simp only [decide_eq_true_eq] at hpa ⊢
    omega
  have hcollect : collect_log_queries_after_timestamp qs T =
      qs.filter fun q => decide (T ≤ q.timestamp) := by
    rw [collect_log_queries_after_timestamp]
    exact takeWhile_reverse_eq_filter _ qs hqsorted
  rw [hcollect, ← List.countP_eq_length_filter]
  subst hmap
  rw [List.length_map, List.countP_map]
  have hsum := List.length_eq_countP_add_countP (fun q : LogQuery => decide (T ≤ q.timestamp)) qs
  have hcompl : List.countP
        ((fun t => decide (t < T)) ∘ fun q : LogQuery => q.timestamp) qs =
      List.countP (fun a : LogQuery => decide ¬decide (T ≤ a.timestamp) = true) qs := by
    apply List.countP_congr
    intro x _
    constructor
    · intro hx
      simp only [Function.comp, decide_eq_true_eq] at hx
      simp only [decide_eq_true_eq]
      omega
    · intro hx
      simp only [decide_eq_true_eq] at hx
      simp only [Function.comp, decide_eq_true_eq]
      omega
  rw [hcompl]
  omega

/-- Witness for C7 on a concrete sorted slice with an interior threshold. -/
theorem claim_precompile_count_eq_collect_length_witness :
    precompile_calls_count_after_timestamp [1, 3, 3, 7] 3 =
      (collect_log_queries_after_timestamp [⟨1, 0⟩, ⟨3, 1⟩, ⟨3, 2⟩, ⟨7, 3⟩] 3).length :=
  claim_precompile_count_eq_collect_length [1, 3, 3, 7] 3
    [⟨1, 0⟩, ⟨3, 1⟩, ⟨3, 2⟩, ⟨7, 3⟩] (by decide) (by decide)

/-- C5: `get_bytecode` fails fatally exactly when the hash is absent from
both the `known_bytecodes` cache and storage; a cache miss with a storage
hit converts the raw bytes to big-endian words, memoizes them under the
call's timestamp, and returns them; a cache hit returns the cached words
with the oracle unchanged — for every storage function, i.e. without
consulting storage. -/
theorem claim_get_bytecode_spec (storage : Nat → Option (List Nat))
    (kb : HistoryRecorder (List Nat)) (dh : HistoryRecorder Nat) (rq : RequestsRecorder)
    (hash timestamp : Nat) :
    ((⟨storage, kb, dh, rq⟩ : DecommitterOracle).get_bytecode hash timestamp = none ↔
        amGet kb.inner hash = none ∧ storage hash = none) ∧
      (∀ W, amGet kb.inner hash = some W →
        (⟨storage, kb, dh, rq⟩ : DecommitterOracle).get_bytecode hash timestamp =
          some (W, ⟨storage, kb, dh, rq⟩)) ∧
      (∀ bytes, amGet kb.inner hash = none → storage hash = some bytes →
        (⟨storage, kb, dh, rq⟩ : DecommitterOracle).get_bytecode hash timestamp =
          some (bytes_to_be_words bytes,
            ⟨storage, kb.insert hash (bytes_to_be_words bytes) timestamp, dh, rq⟩)) := by
  refine ⟨?_, ?_, ?_⟩
  · cases hkb : amGet kb.inner hash with
    | some W => simp [DecommitterOracle.get_bytecode, hkb]
    | none =>
      cases hst : storage hash with
      | some bytes => simp [DecommitterOracle.get_bytecode, hkb, hst]
      | none => simp [DecommitterOracle.get_bytecode, hkb, hst]
  · intro W hkb
    simp [DecommitterOracle.get_bytecode, hkb]
  · intro bytes hkb hst
    simp [DecommitterOracle.get_bytecode, hkb, hst]

/-- Witness for C5: a cache hit ignores a disagreeing storage; a miss falls
back to storage and memoizes; a double miss aborts. -/
theorem claim_get_bytecode_spec_witness :
    ((⟨fun _ => none, ⟨[(7, [5, 6])], []⟩, ⟨[], []⟩, ⟨[], []⟩⟩ :
        DecommitterOracle).get_bytecode 7 4 =
      some ([5, 6], ⟨fun _ => none, ⟨[(7, [5, 6])], []⟩, ⟨[], []⟩, ⟨[], []⟩⟩)) ∧
    ((⟨fun h => if h = 9 then some (List.replicate 32 1) else none,
        ⟨[], []⟩, ⟨[], []⟩, ⟨[], []⟩⟩ : DecommitterOracle).get_bytecode 9 4 =
      some (bytes_to_be_words (List.replicate 32 1),
        ⟨fun h => if h = 9 then some (List.replicate 32 1) else none,
          HistoryRecorder.insert ⟨[], []⟩ 9 (bytes_to_be_words (List.replicate 32 1)) 4,
          ⟨[], []⟩, ⟨[], []⟩⟩)) ∧
    ((⟨fun _ => none, ⟨[], []⟩, ⟨[], []⟩, ⟨[], []⟩⟩ :
        DecommitterOracle).get_bytecode 9 4 = none) :=
  ⟨(claim_get_bytecode_spec (fun _ => none) ⟨[(7, [5, 6])], []⟩ ⟨[], []⟩ ⟨[], []⟩ 7 4).2.1
      [5, 6] (by decide),
    (claim_get_bytecode_spec (fun h => if h = 9 then some (List.replicate 32 1) else none)
        ⟨[], []⟩ ⟨[], []⟩ ⟨[], []⟩ 9 4).2.2 (List.replicate 32 1) (by decide) (by decide),
    (claim_get_bytecode_spec (fun _ => none) ⟨[], []⟩ ⟨[], []⟩ ⟨[], []⟩ 9 4).1.2
      ⟨by decide, rfl⟩⟩

/-- Shared helper: the repeat branch of `decommit_into_memory` as one
equation, for a hash already recorded in the page map. -/
theorem decommit_into_memory_repeat (storage : Nat → Option (List Nat))
    (kb : HistoryRecorder (List Nat)) (dh : HistoryRecorder Nat) (rq : RequestsRecorder)
    (B : Bool) (q : DecommittmentQuery) (p : Nat)
    (hp : amGet dh.inner q.hash = some p) :
    (⟨storage, kb, dh, rq⟩ : DecommitterOracle).decommit_into_memory B q =
      some ({ q with
          is_fresh := false
          memory_page := p
          decommitted_length := bytecode_len_in_words q.hash },
        none, [], ⟨storage, kb, dh, rq.push q.timestamp⟩) := by
  simp [DecommitterOracle.decommit_into_memory, hp]

/-- Shared helper: association-map lookup finds the binding at the head. -/
theorem amGet_cons_self {β : Type} (k : Nat) (v : β) (m : List (Nat × β)) :
    amGet ((k, v) :: m) k = some v := by
  simp [amGet, List.lookup]

/-- C1 (amended): a repeat decommit of a hash already recorded in
`decommitted_code_hashes` reports not-fresh, the recorded page, and a
decommitted length *recomputed from the hash* (the `u16` word count field of
the versioned code hash) — not the length reported at the first decommit —
touching no memory and updating only the request log. -/
theorem claim_repeat_decommit_spec (storage : Nat → Option (List Nat))
    (kb : HistoryRecorder (List Nat)) (dh : HistoryRecorder Nat) (rq : RequestsRecorder)
    (B : Bool) (q : DecommittmentQuery) (p : Nat)
    (hp : amGet dh.inner q.hash = some p) :
    (⟨storage, kb, dh, rq⟩ : DecommitterOracle).decommit_into_memory B q =
      some ({ q with
          is_fresh := false
          memory_page := p
          decommitted_length := bytecode_len_in_words q.hash },
        none, [], ⟨storage, kb, dh, rq.push q.timestamp⟩) :=
  decommit_into_memory_repeat storage kb dh rq B q p hp

/-- Witness for the amended C1: a repeat decommit on a concrete oracle whose
page map holds hash `2 * 2 ^ 224` (length field 2) at page 8. -/
theorem claim_repeat_decommit_spec_witness :
    (⟨fun _ => none, ⟨[(2 * 2 ^ 224, [5])], [(1, 2 * 2 ^ 224, none)]⟩,
        ⟨[(2 * 2 ^ 224, 8)], [(2, 2 * 2 ^ 224, none)]⟩, ⟨[()], [2]⟩⟩ :
      DecommitterOracle).decommit_into_memory false ⟨2 * 2 ^ 224, 3, 9, 0, false⟩ =
      some (⟨2 * 2 ^ 224, 3, 8, bytecode_len_in_words (2 * 2 ^ 224), false⟩,
        none, [],
        ⟨fun _ => none, ⟨[(2 * 2 ^ 224, [5])], [(1, 2 * 2 ^ 224, none)]⟩,
          ⟨[(2 * 2 ^ 224, 8)], [(2, 2 * 2 ^ 224, none)]⟩,
          RequestsRecorder.push ⟨[()], [2]⟩ 3⟩) :=
  claim_repeat_decommit_spec (fun _ => none)
    ⟨[(2 * 2 ^ 224, [5])], [(1, 2 * 2 ^ 224, none)]⟩
    ⟨[(2 * 2 ^ 224, 8)], [(2, 2 * 2 ^ 224, none)]⟩ ⟨[()], [2]⟩ false
    ⟨2 * 2 ^ 224, 3, 9, 0, false⟩ 8 (by decide)

/-- Counterexample to C1 as stated: hash `2 * 2 ^ 224` carries length field
2, but its bytecode (seeded by `populate`) is the single word `[5]`.  The
first (fresh) decommit reports length 1 and records page 8; the repeat
decommit reports not-fresh at page 8 but length 2 — not the previously
recorded length 1. -/
theorem claim_repeat_decommit_length_cex :
    ((((DecommitterOracle.new fun _ => none).populate [(2 * 2 ^ 224, [5])] 1
          ).decommit_into_memory false ⟨2 * 2 ^ 224, 2, 8, 0, false⟩).map
        (fun r => (r.1, r.2.2.2.decommitted_code_hashes,
          r.2.2.2.known_bytecodes, r.2.2.2.decommitment_requests)) =
      some (⟨2 * 2 ^ 224, 2, 8, 1, true⟩,
        ⟨[(2 * 2 ^ 224, 8)], [(2, 2 * 2 ^ 224, none)]⟩,
        ⟨[(2 * 2 ^ 224, [5])], [(1, 2 * 2 ^ 224, none)]⟩,
        ⟨[()], [2]⟩)) ∧
    (((⟨fun _ => none, ⟨[(2 * 2 ^ 224, [5])], [(1, 2 * 2 ^ 224, none)]⟩,
          ⟨[(2 * 2 ^ 224, 8)], [(2, 2 * 2 ^ 224, none)]⟩, ⟨[()], [2]⟩⟩ :
        DecommitterOracle).decommit_into_memory false
          ⟨2 * 2 ^ 224, 3, 9, 0, false⟩).map (fun r => r.1) =
      some ⟨2 * 2 ^ 224, 3, 8, 2, false⟩) ∧
    (2 : Nat) ≠ 1 := by
  refine ⟨by decide, by decide, by decide⟩

/-- Shared helper: the fresh branch of `decommit_into_memory` as one
equation, for a hash absent from the page map whose bytecode resolves to
`W`. -/
theorem decommit_into_memory_fresh (storage : Nat → Option (List Nat))
    (kb : HistoryRecorder (List Nat)) (dh : HistoryRecorder Nat) (rq : RequestsRecorder)
    (B : Bool) (q : DecommittmentQuery) (W : List Nat) (s2 : DecommitterOracle)
    (hmiss : amGet dh.inner q.hash = none)
    (hget : DecommitterOracle.get_bytecode ⟨storage, kb, dh, rq.push q.timestamp⟩
        q.hash q.timestamp = some (W, s2)) :
    (⟨storage, kb, dh, rq⟩ : DecommitterOracle).decommit_into_memory B q =
      some ({ q with
          decommitted_length := W.length % 2 ^ 16
          is_fresh := true },
        if B then some W else none,
        W.enum.map (fun p => (p.1 % 2 ^ 32, p.2)),
        { s2 with
          decommitted_code_hashes :=
            s2.decommitted_code_hashes.insert q.hash q.memory_page q.timestamp }) := by
  simp [DecommitterOracle.decommit_into_memory, hmiss, hget]

/-- C4 (amended): a fresh decommit of a hash not yet in
`decommitted_code_hashes` whose bytecode resolves to the word sequence `W`
marks the query fresh, sets `decommitted_length` to `W.length` *reduced
mod `2 ^ 16`* (the `as u16` cast; equal to `W.length` whenever it is below
`2 ^ 16`), records the caller-supplied page for the hash, writes word `W[i]`
at word index `i` (taken as `u32`) for every `i`, and returns the word
sequence exactly when the oracle is in witness mode. -/
theorem claim_fresh_decommit_spec (storage : Nat → Option (List Nat))
    (kb : HistoryRecorder (List Nat)) (dh : HistoryRecorder Nat) (rq : RequestsRecorder)
    (B : Bool) (q : DecommittmentQuery) (W : List Nat) (s2 : DecommitterOracle)
    (hmiss : amGet dh.inner q.hash = none)
    (hget : DecommitterOracle.get_bytecode ⟨storage, kb, dh, rq.push q.timestamp⟩
        q.hash q.timestamp = some (W, s2)) :
    (⟨storage, kb, dh, rq⟩ : DecommitterOracle).decommit_into_memory B q =
      some ({ q with
          decommitted_length := W.length % 2 ^ 16
          is_fresh := true },
        if B then some W else none,
        W.enum.map (fun p => (p.1 % 2 ^ 32, p.2)),
        { s2 with
          decommitted_code_hashes :=
            s2.decommitted_code_hashes.insert q.hash q.memory_page q.timestamp }) :=
  decommit_into_memory_fresh storage kb dh rq B q W s2 hmiss hget

/-- Witness for the amended C4: a fresh decommit in witness mode on a
concrete oracle with a two-word cached bytecode. -/
theorem claim_fresh_decommit_spec_witness :
    (⟨fun _ => none, ⟨[(7, [4, 5])], []⟩, ⟨[], []⟩, ⟨[], []⟩⟩ :
        DecommitterOracle).decommit_into_memory true ⟨7, 5, 11, 0, false⟩ =
      some (⟨7, 5, 11, 2, true⟩, some [4, 5], [(0, 4), (1, 5)],
        ⟨fun _ => none, ⟨[(7, [4, 5])], []⟩,
          HistoryRecorder.insert ⟨[], []⟩ 7 11 5, ⟨[()], [5]⟩⟩) := by
  have h := claim_fresh_decommit_spec (fun _ => none) ⟨[(7, [4, 5])], []⟩ ⟨[], []⟩ ⟨[], []⟩
    true ⟨7, 5, 11, 0, false⟩ [4, 5]
    ⟨fun _ => none, ⟨[(7, [4, 5])], []⟩, ⟨[], []⟩, ⟨[()], [5]⟩⟩ (by decide) rfl
  simpa using h

/-- Counterexample to C4 as stated: a bytecode of exactly `2 ^ 16` words
(seeded via `populate`) decommits fresh with `decommitted_length = 0`, the
`u16` truncation of its word count, not the word count `2 ^ 16` itself. -/
theorem claim_fresh_decommit_length_cex :
    ((((DecommitterOracle.new fun _ => none).populate
            [(7, List.replicate (2 ^ 16) 0)] 1).decommit_into_memory false
          ⟨7, 2, 8, 0, false⟩).map (fun r => (r.1.is_fresh, r.1.decommitted_length)) =
      some (true, 0)) ∧
    (List.replicate (2 ^ 16) (0 : Nat)).length = 2 ^ 16 ∧ (0 : Nat) ≠ 2 ^ 16 := by
  refine ⟨?_, by rw [List.length_replicate], by omega⟩
  have hpop : (DecommitterOracle.new fun _ => none).populate
      [(7, List.replicate (2 ^ 16) 0)] 1 =
      ⟨fun _ => none, ⟨[(7, List.replicate (2 ^ 16) 0)], [(1, 7, none)]⟩,
        ⟨[], []⟩, ⟨[], []⟩⟩ := by
    rw [DecommitterOracle.populate, DecommitterOracle.new]
    rfl
  rw [hpop]
  have hget : DecommitterOracle.get_bytecode
      ⟨fun _ => none, ⟨[(7, List.replicate (2 ^ 16) 0)], [(1, 7, none)]⟩,
        ⟨[], []⟩, RequestsRecorder.push ⟨[], []⟩ 2⟩ 7 2 =
      some (List.replicate (2 ^ 16) 0,
        ⟨fun _ => none, ⟨[(7, List.replicate (2 ^ 16) 0)], [(1, 7, none)]⟩,
          ⟨[], []⟩, RequestsRecorder.push ⟨[], []⟩ 2⟩) := rfl
  have h := decommit_into_memory_fresh (fun _ => none)
    ⟨[(7, List.replicate (2 ^ 16) 0)], [(1, 7, none)]⟩ ⟨[], []⟩ ⟨[], []⟩
    false ⟨7, 2, 8, 0, false⟩ (List.replicate (2 ^ 16) 0)
    ⟨fun _ => none, ⟨[(7, List.replicate (2 ^ 16) 0)], [(1, 7, none)]⟩,
      ⟨[], []⟩, RequestsRecorder.push ⟨[], []⟩ 2⟩ rfl hget
  rw [h, show (List.replicate (2 ^ 16) (0:Nat)).length = 2 ^ 16 from
      List.length_replicate (2 ^ 16) 0,
    show (2 ^ 16 % 2 ^ 16 : Nat) = 0 from Nat.mod_self _]
  rfl

/-- C3: decommit `H` fresh at `t1`, decommit `H` again at `t2 > t1`
(not fresh), roll the oracle back to `t1`, and a third decommit at `t3 > t2`
is fresh again: it records `H` at the new page and re-issues all the memory
writes.  Rollback delegates to both history recorders and the request log
and restores exactly the pre-`t1` state (here: the state just after
`populate` at `t0 < t1`). -/
theorem claim_decommit_after_rollback_retriggers
    (storage : Nat → Option (List Nat)) (H : Nat) (W : List Nat)
    (t0 t1 t2 t3 p1 p2 p3 d1 d2 d3 : Nat) (f1 f2 f3 B : Bool)
    (h01 : t0 < t1) (h12 : t1 < t2) (h23 : t2 < t3) :
    ((DecommitterOracle.new storage).populate [(H, W)] t0).decommit_into_memory B
        ⟨H, t1, p1, d1, f1⟩ =
      some (⟨H, t1, p1, W.length % 2 ^ 16, true⟩, if B then some W else none,
        W.enum.map (fun p => (p.1 % 2 ^ 32, p.2)),
        ⟨storage, ⟨[(H, W)], [(t0, H, none)]⟩, ⟨[(H, p1)], [(t1, H, none)]⟩,
          ⟨[()], [t1]⟩⟩) ∧
    (⟨storage, ⟨[(H, W)], [(t0, H, none)]⟩, ⟨[(H, p1)], [(t1, H, none)]⟩,
        ⟨[()], [t1]⟩⟩ : DecommitterOracle).decommit_into_memory B ⟨H, t2, p2, d2, f2⟩ =
      some (⟨H, t2, p1, bytecode_len_in_words H, false⟩, none, [],
        ⟨storage, ⟨[(H, W)], [(t0, H, none)]⟩, ⟨[(H, p1)], [(t1, H, none)]⟩,
          ⟨[(), ()], [t2, t1]⟩⟩) ∧
    (⟨storage, ⟨[(H, W)], [(t0, H, none)]⟩, ⟨[(H, p1)], [(t1, H, none)]⟩,
        ⟨[(), ()], [t2, t1]⟩⟩ : DecommitterOracle).rollback_to_timestamp t1 =
      (DecommitterOracle.new storage).populate [(H, W)] t0 ∧
    ((DecommitterOracle.new storage).populate [(H, W)] t0).decommit_into_memory B
        ⟨H, t3, p3, d3, f3⟩ =
      some (⟨H, t3, p3, W.length % 2 ^ 16, true⟩, if B then some W else none,
        W.enum.map (fun p => (p.1 % 2 ^ 32, p.2)),
        ⟨storage, ⟨[(H, W)], [(t0, H, none)]⟩, ⟨[(H, p3)], [(t3, H, none)]⟩,
          ⟨[()], [t3]⟩⟩) := by
  have hpop : (DecommitterOracle.new storage).populate [(H, W)] t0 =
      ⟨storage, ⟨[(H, W)], [(t0, H, none)]⟩, ⟨[], []⟩, ⟨[], []⟩⟩ := by
    rw [DecommitterOracle.populate, DecommitterOracle.new]
    rfl
  have hlkW : amGet [(H, W)] H = some W := amGet_cons_self H W []
  have hfresh : ∀ (t p : Nat) (d : Nat) (f : Bool),
      (⟨storage, ⟨[(H, W)], [(t0, H, none)]⟩, ⟨[], []⟩, ⟨[], []⟩⟩ :
        DecommitterOracle).decommit_into_memory B ⟨H, t, p, d, f⟩ =
      some (⟨H, t, p, W.length % 2 ^ 16, true⟩, if B then some W else none,
        W.enum.map (fun pr => (pr.1 % 2 ^ 32, pr.2)),
        ⟨storage, ⟨[(H, W)], [(t0, H, none)]⟩, ⟨[(H, p)], [(t, H, none)]⟩,
          ⟨[()], [t]⟩⟩) := by
    intro t p d f
    have hget : DecommitterOracle.get_bytecode
        ⟨storage, ⟨[(H, W)], [(t0, H, none)]⟩, ⟨[], []⟩,
          RequestsRecorder.push ⟨[], []⟩ t⟩ H t =
        some (W, ⟨storage, ⟨[(H, W)], [(t0, H, none)]⟩, ⟨[], []⟩,
          RequestsRecorder.push ⟨[], []⟩ t⟩) := by
      rw [DecommitterOracle.get_bytecode]
      rw [show amGet ((⟨[(H, W)], [(t0, H, none)]⟩ :
        HistoryRecorder (List Nat)).inner) H = some W from hlkW]
    rw [decommit_into_memory_fresh storage ⟨[(H, W)], [(t0, H, none)]⟩ ⟨[], []⟩ ⟨[], []⟩
      B ⟨H, t, p, d, f⟩ W _ rfl hget]
    rfl
  refine ⟨?_, ?_, ?_, ?_⟩
  · rw [hpop]
    exact hfresh t1 p1 d1 f1
  · rw [decommit_into_memory_repeat storage ⟨[(H, W)], [(t0, H, none)]⟩
      ⟨[(H, p1)], [(t1, H, none)]⟩ ⟨[()], [t1]⟩ B ⟨H, t2, p2, d2, f2⟩ p1
      (amGet_cons_self H p1 [])]
    rfl
  · rw [hpop]
    have hn01 : ¬t0 ≥ t1 := by omega
    have h11 : t1 ≥ t1 := le_refl t1
    have h21 : t2 ≥ t1 := by omega
    simp [DecommitterOracle.rollback_to_timestamp, HistoryRecorder.rollback_to_timestamp,
      RequestsRecorder.rollback_to_timestamp, hrRollbackGo, rrRollbackGo, amRemove,
      hn01, h11, h21, List.filter]
  · rw [hpop]
    exact hfresh t3 p3 d3 f3

/-- Witness for C3 on a concrete oracle: rollback restores the populated
state and the third decommit is fresh at the new page. -/
theorem claim_decommit_after_rollback_retriggers_witness :
    ((⟨fun _ => none, ⟨[(7, [4])], [(1, 7, none)]⟩, ⟨[(7, 8)], [(2, 7, none)]⟩,
        ⟨[(), ()], [3, 2]⟩⟩ : DecommitterOracle).rollback_to_timestamp 2 =
      (DecommitterOracle.new fun _ => none).populate [(7, [4])] 1) ∧
    ((DecommitterOracle.new fun _ => none).populate [(7, [4])] 1).decommit_into_memory
        false ⟨7, 4, 10, 0, false⟩ =
      some (⟨7, 4, 10, 1, true⟩, none, [(0, 4)],
        ⟨fun _ => none, ⟨[(7, [4])], [(1, 7, none)]⟩, ⟨[(7, 10)], [(4, 7, none)]⟩,
          ⟨[()], [4]⟩⟩) :=
  ⟨(claim_decommit_after_rollback_retriggers (fun _ => none) 7 [4] 1 2 3 4 8 9 10 0 0 0
      false false false false (by decide) (by decide) (by decide)).2.2.1,
    (claim_decommit_after_rollback_retriggers (fun _ => none) 7 [4] 1 2 3 4 8 9 10 0 0 0
      false false false false (by decide) (by decide) (by decide)).2.2.2⟩

end ZkSyncRevo

